import Mathlib

/-!
Verification of `src/libs/processing/process_area.py` (formHTR).

The Python module is shallowly embedded below.  Geometry is modelled over `ℚ`
(the Python code computes with floats; none of the verified properties depend
on rounding).  Python functions that can raise, or that can return `None`,
are embedded as `Option`-valued functions.  In-place mutation of the caller's
lists (Python `list.sort`) is made explicit: the mutating functions return the
new contents of the mutated list alongside their result.

Layout: all definitions first, then the theorems.
-/

/-- A recognised region.  Modelled from the spec: `Rectangle` is an external
immutable value carrying region bounds `start_x, end_x, start_y, end_y`
(hence `start ≤ end` on each axis), the recognised `content` string, and the
derived `center_y` / `height`. -/
structure Rectangle where
  start_x : ℚ
  end_x : ℚ
  start_y : ℚ
  end_y : ℚ
  content : String
  hx : start_x ≤ end_x
  hy : start_y ≤ end_y

namespace Rectangle

/-- Derived vertical center of a rectangle. -/
def center_y (r : Rectangle) : ℚ := (r.start_y + r.end_y) / 2

/-- Derived height of a rectangle. -/
def height (r : Rectangle) : ℚ := r.end_y - r.start_y

instance : DecidableEq Rectangle := fun a b =>
  decidable_of_iff
    (a.start_x = b.start_x ∧ a.end_x = b.end_x ∧ a.start_y = b.start_y ∧
      a.end_y = b.end_y ∧ a.content = b.content)
    ⟨fun ⟨h1, h2, h3, h4, h5⟩ => by cases a; cases b; simp_all,
     fun h => by subst h; exact ⟨rfl, rfl, rfl, rfl, rfl⟩⟩

end Rectangle

/-- Modelled from the spec: an `ROI` is an external collaborator exposing the
predicate "does rectangle R exceed these bounds". -/
structure ROI where
  exceeding_rectangle : Rectangle → Bool

/-- `check_barcode_area` from the source: every per-source list has at most
one rectangle and at least one source found something. -/
def check_barcode_area (candidates : List (List Rectangle)) : Bool :=
  let sums := candidates.map List.length
  sums.all (fun i => i ≤ 1) && decide (1 ≤ sums.sum)

/-- Insert `a` into `l` after every element `b` with `le b a`; the building
block of a stable sort. -/
def stable_insert {α : Type} (le : α → α → Bool) (a : α) : List α → List α
  | [] => [a]
  | b :: bs => if le b a then b :: stable_insert le a bs else a :: b :: bs

/-- Stable sort (the semantics of Python's `list.sort`): insert the elements
left to right, each after all its equals. -/
def stable_sort {α : Type} (le : α → α → Bool) (l : List α) : List α :=
  l.foldl (fun acc a => stable_insert le a acc) []

/-- The comparison used by `rectangles.sort(key=lambda r: r.center_y)`. -/
def center_le (a b : Rectangle) : Bool := decide (a.center_y ≤ b.center_y)

/-- The in-place `rectangles.sort(key=lambda rectangle: rectangle.center_y)`
(stable sort by vertical center). -/
def sort_by_center (rectangles : List Rectangle) : List Rectangle :=
  stable_sort center_le rectangles

/-- The grouping loop of `separate_to_lines`: walk the sorted rectangles,
starting a new line whenever the running rectangle's vertical center differs
from `previous_y` by more than the threshold, and flush the last open line. -/
def lines_loop (threshold : ℚ) :
    List Rectangle → ℚ → List Rectangle → List (List Rectangle)
  | [], _, current_line => if current_line.isEmpty then [] else [current_line]
  | rectangle :: rest, previous_y, current_line =>
    if |rectangle.center_y - previous_y| > threshold then
      current_line :: lines_loop threshold rest rectangle.center_y [rectangle]
    else
      lines_loop threshold rest rectangle.center_y (current_line ++ [rectangle])

/-- `line_break_threshold` of `separate_to_lines`: half of the mean
rectangle height (`np.mean([...]) * 0.5`). -/
def break_threshold (rectangles : List Rectangle) : ℚ :=
  (((rectangles.map Rectangle.height).sum) / (rectangles.length : ℚ)) * (1 / 2)

/-- `separate_to_lines` from the source.  The input list is sorted in place,
so the function returns the produced lines together with the new contents of
the caller's list.  On an empty input the source raises (`rectangles[0]`),
hence `none`. -/
def separate_to_lines (rectangles : List Rectangle) :
    Option (List (List Rectangle) × List Rectangle) :=
  match rectangles with
  | [] => none
  | r :: rs =>
    let sorted := sort_by_center (r :: rs)
    some (lines_loop (break_threshold sorted) sorted ((sorted.headD r).center_y) [],
      sorted)

/-- `get_max_words` from the source: the largest rectangle count found in any
single line across all groups. -/
def get_max_words (groups : List (List (List Rectangle))) : Nat :=
  groups.foldl (fun acc group => group.foldl (fun m line => max m line.length) acc) 0

/-- One step of a global pairwise alignment: consume a character from both
strings (`m`), from the second only (`g1`, a gap in the first string), or
from the first only (`g2`, a gap in the second string). -/
inductive AOp where
  | m : AOp
  | g1 : AOp
  | g2 : AOp
deriving DecidableEq, Repr

/-- All global (end-to-end) alignments of two character sequences. -/
def alignments : List Char → List Char → List (List AOp)
  | [], [] => [[]]
  | [], _ :: ys => (alignments [] ys).map (fun ops => AOp.g1 :: ops)
  | _ :: xs, [] => (alignments xs []).map (fun ops => AOp.g2 :: ops)
  | x :: xs, y :: ys =>
    ((alignments xs ys).map (fun ops => AOp.m :: ops)) ++
      ((alignments xs (y :: ys)).map (fun ops => AOp.g2 :: ops)) ++
      ((alignments (x :: xs) ys).map (fun ops => AOp.g1 :: ops))
termination_by x y => x.length + y.length

/-- Identical characters score 1, mismatched characters score 0. -/
def match_score (a b : Char) : Int := if a = b then 1 else 0

/-- Gap opening costs 3, gap extension costs 1
(`pairwise2.align.globalxs(…, -3, -1)`). -/
def gap_score (prev : Option AOp) (cur : AOp) : Int :=
  if prev = some cur then -1 else -3

/-- Score of an alignment, tracking the previous step for the affine gap
penalty.  The catch-all case covers ill-formed op lists, which never arise
from `alignments`. -/
def score_aux : Option AOp → List Char → List Char → List AOp → Int
  | _, _, _, [] => 0
  | _, x :: xs, y :: ys, AOp.m :: ops => match_score x y + score_aux (some AOp.m) xs ys ops
  | prev, xs, _ :: ys, AOp.g1 :: ops => gap_score prev AOp.g1 + score_aux (some AOp.g1) xs ys ops
  | prev, _ :: xs, ys, AOp.g2 :: ops => gap_score prev AOp.g2 + score_aux (some AOp.g2) xs ys ops
  | _, _, _, _ => 0

/-- Score of a complete alignment of `x` against `y`. -/
def score (x y : List Char) (ops : List AOp) : Int := score_aux none x y ops

/-- The returned best-scoring alignment (`alignments[0]` in the source):
first alignment attaining the maximal score, in enumeration order
(tie-breaking among equal-scoring alignments is implementation-defined). -/
def best_alignment (x y : List Char) : List AOp :=
  match alignments x y with
  | [] => []
  | o :: os => os.foldl (fun best cand => if score x y best < score x y cand then cand else best) o

/-- Render the first string of an alignment: its characters in order, with
the gap character (a space) at each gap in the first string. -/
def render_first : List Char → List AOp → List Char
  | _, [] => []
  | x :: xs, AOp.m :: ops => x :: render_first xs ops
  | xs, AOp.g1 :: ops => ' ' :: render_first xs ops
  | x :: xs, AOp.g2 :: ops => x :: render_first xs ops
  | _, _ => []

/-- Number of `m` steps of an alignment. -/
def count_m : List AOp → Nat
  | [] => 0
  | AOp.m :: ops => count_m ops + 1
  | _ :: ops => count_m ops

/-- Number of gap steps (`g1` or `g2`) of an alignment. -/
def count_g : List AOp → Nat
  | [] => 0
  | AOp.m :: ops => count_g ops
  | _ :: ops => count_g ops + 1

/-- `align_pairwise` from the source.  Modelled from the spec: the call
`pairwise2.align.globalxs(string_1, string_2, -3, -1, gap_char=' ')` is an
external library routine performing global end-to-end alignment with match
score 1, mismatch 0, gap open penalty 3, gap extension penalty 1; the source
keeps `alignments[0][0]`, the first string of a best-scoring alignment with
gaps rendered as spaces. -/
def align_pairwise (string_1 string_2 : String) : String :=
  String.mk (render_first string_1.toList (best_alignment string_1.toList string_2.toList))

/-- Python `str.ljust`: right-pad with spaces to the requested width. -/
def ljust (row : List Char) (width : Nat) : List Char :=
  row ++ List.replicate (width - row.length) ' '

/-- `zip(*rows)` over the tail rows, driven by the first row: stop as soon as
any row is exhausted, otherwise emit the tuple of heads and continue on the
tails. -/
def columns_aux : List Char → List (List Char) → List (List Char)
  | [], _ => []
  | c :: cs, rest =>
    if rest.any (fun r => r.isEmpty) then []
    else (c :: rest.map (fun r => r.headD ' ')) :: columns_aux cs (rest.map List.tail)

/-- `zip(*rows)`: the list of columns of the given rows. -/
def columns : List (List Char) → List (List Char)
  | [] => []
  | row :: rest => columns_aux row rest

/-- One step of the per-position counting dict of `majority_vote`
(`count[char] = count.get(char, 0) + 1`, insertion-ordered keys). -/
def insert_count (counts : List (Char × Nat)) (c : Char) : List (Char × Nat) :=
  if counts.any (fun p => p.1 = c) then
    counts.map (fun p => if p.1 = c then (p.1, p.2 + 1) else p)
  else counts ++ [(c, 1)]

/-- The occurrence counts of the characters of a column, keys ordered by
first appearance. -/
def build_counts (chars : List Char) : List (Char × Nat) :=
  chars.foldl insert_count []

/-- Python `max(count, key=count.get)`: the first key attaining the maximal
count, in key (= first-seen) order.  The source raises on an empty dict;
columns are never empty here. -/
def max_by_count : List (Char × Nat) → Char
  | [] => ' '
  | p :: ps => (ps.foldl (fun best q => if best.2 < q.2 then q else best) p).1

/-- The characters of a list kept at their first occurrence, in order
(the key list of the counting dict). -/
def first_seen (chars : List Char) : List Char :=
  chars.foldl (fun acc c => if c ∈ acc then acc else acc ++ [c]) []

/-- `max(len(s) for s in strings)` over the rows (0 for no rows; the source
raises there). -/
def max_row_length (rows : List (List Char)) : Nat :=
  (rows.map List.length).foldl Nat.max 0

/-- Right-pad every row with spaces to the given width. -/
def pad_rows (rows : List (List Char)) (width : Nat) : List (List Char) :=
  rows.map (fun row => ljust row width)

/-- The voted string of a non-empty list of strings: right-pad everything to
the longest length, then vote per column. -/
def vote_string (strings : List String) : String :=
  String.mk
    ((columns (pad_rows (strings.map String.toList)
        (max_row_length (strings.map String.toList)))).map
      (fun col => max_by_count (build_counts col)))

/-- `majority_vote` from the source.  On an empty input Python's `max` over
an empty sequence raises, hence `none`. -/
def majority_vote (strings : List String) : Option String :=
  match strings with
  | [] => none
  | s0 :: rest => some (vote_string (s0 :: rest))

/-- The characters found at position `i` across the space-padded inputs (a
string shorter than `i + 1` contributes the padding space). -/
def col_at (strings : List String) (i : Nat) : List Char :=
  (strings.map String.toList).map (fun r => r.getD i ' ')

/-- `identify_words` from the source: branch on the number of surviving
sources.  Any count other than 1, 2 or 3 falls off the `if/elif` chain, so
the Python function returns `None`. -/
def identify_words (lines : List String) : Option String :=
  match lines with
  | [l0] => some l0
  | [l0, l1] =>
    let align_1 := align_pairwise l0 l1
    let align_2 := align_pairwise l1 l0
    majority_vote [align_1, align_2]
  | [l0, l1, l2] =>
    let result_0 := align_pairwise (align_pairwise l0 l1) (align_pairwise l0 l2)
    let result_1 := align_pairwise (align_pairwise l1 l2) (align_pairwise l1 l0)
    let result_2 := align_pairwise (align_pairwise l2 l0) (align_pairwise l2 l1)
    majority_vote [result_0, result_1, result_2]
  | _ => none

/-- The inner loop of `filter_exceeding_words` for one line: the reduced line
(non-exceeding rectangles, in order) and the `exceeding_indicator` flag. -/
def reduce_line (roi : ROI) (line : List Rectangle) : List Rectangle × Bool :=
  line.foldl
    (fun acc rectangle =>
      let rectangle_exceeding := roi.exceeding_rectangle rectangle
      (if rectangle_exceeding then acc.1 else acc.1 ++ [rectangle],
        acc.2 || rectangle_exceeding))
    ([], false)

/-- `filter_exceeding_words` from the source: keep the lines unchanged when
the per-line indicators are unanimous, return the reduced lines otherwise. -/
def filter_exceeding_words (lines : List (List Rectangle)) (roi : ROI) :
    List (List Rectangle) :=
  let indicators := lines.map (fun line => (reduce_line roi line).2)
  let reduced_lines := lines.map (fun line => (reduce_line roi line).1)
  if ¬ (indicators.all (fun i => i) ∨ ¬ indicators.any (fun i => i)) then
    reduced_lines
  else lines

/-- `process_lines` from the source: boundary reconciliation, per-line
content join, empty-line filter, then consensus identification. -/
def process_lines (lines : List (List Rectangle)) (roi : ROI) : Option String :=
  let filtered := filter_exceeding_words lines roi
  let lines_of_words := filtered.map (fun line => line.map Rectangle.content)
  let nonempty_words := lines_of_words.filter (fun line => ¬ line.isEmpty)
  identify_words (nonempty_words.map (fun line => String.intercalate " " line))

/-- Mean vertical center of a line's rectangles (`np.mean`; the source
produces NaN on an empty line — a line is never empty here, and the value 0
stands in for that unreachable case). -/
def line_center (line : List Rectangle) : ℚ :=
  ((line.map Rectangle.center_y).sum) / (line.length : ℚ)

/-- `max([rectangle.end_y for rectangle in line])`; Python raises on an empty
line (unreachable in the pipeline). -/
def line_bottom : List Rectangle → ℚ
  | [] => 0
  | r :: rs => rs.foldl (fun acc q => max acc q.end_y) r.end_y

/-- `min([rectangle.start_y for rectangle in line])`; Python raises on an
empty line (unreachable in the pipeline). -/
def line_top : List Rectangle → ℚ
  | [] => 0
  | r :: rs => rs.foldl (fun acc q => min acc q.start_y) r.start_y

/-- The grouping dictionary of `align_lines`, as an insertion-ordered
association list from representative center to member lines. -/
abbrev Groups : Type := List (ℚ × List (List Rectangle))

/-- Python dict assignment `groups[center] = value`: replace the value if the
key is present, append a new entry otherwise. -/
def dict_insert (groups : Groups) (center : ℚ) (value : List (List Rectangle)) :
    Groups :=
  if groups.any (fun p => p.1 = center) then
    groups.map (fun p => if p.1 = center then (p.1, value) else p)
  else groups ++ [(center, value)]

/-- Processing of one line by `align_lines`: append the line to every group
whose representative center lies within the line's vertical span; if no group
matched, open a new group keyed by the line's own mean center. -/
def assign_line (groups : Groups) (line : List Rectangle) : Groups :=
  let center := line_center line
  let bottom := line_bottom line
  let top := line_top line
  if groups.any (fun p => decide (bottom ≥ p.1) && decide (p.1 ≥ top)) then
    groups.map (fun p =>
      if bottom ≥ p.1 ∧ p.1 ≥ top then (p.1, p.2 ++ [line]) else p)
  else
    dict_insert groups center [line]

/-- The grouping dictionary built by `align_lines` over all sources' lines
(sources in input order, lines top-to-bottom within a source). -/
def align_lines_groups (candidate_lines : List (List (List Rectangle))) : Groups :=
  candidate_lines.foldl (fun groups lines => lines.foldl assign_line groups) []

/-- `align_lines` from the source: the grouped lines, in first-seen group
order (`[v for _, v in groups.items()]`). -/
def align_lines (candidate_lines : List (List (List Rectangle))) :
    List (List (List Rectangle)) :=
  (align_lines_groups candidate_lines).map Prod.snd

/-- Rectangle comparison used by `line.sort()`.  Modelled from the spec:
`Rectangle` carries a total order consistent with left-to-right reading
order, keyed primarily on the horizontal coordinate. -/
def rect_le (a b : Rectangle) : Bool := decide (a.start_x ≤ b.start_x)

/-- The in-place `line.sort()` on a line (left-to-right reading order). -/
def sort_line (line : List Rectangle) : List Rectangle :=
  stable_sort rect_le line

/-- The first loop of `general_text_area`: skip empty candidates, split each
remaining candidate into lines (sorting the candidate's list in place), sort
each line left-to-right.  Returns the collected per-candidate line lists and
the new contents of the caller's candidate lists. -/
def collect_candidate_lines (candidates : List (List Rectangle)) :
    List (List (List Rectangle)) × List (List Rectangle) :=
  match candidates with
  | [] => ([], [])
  | candidate :: rest =>
    let tail := collect_candidate_lines rest
    match separate_to_lines candidate with
    | none => (tail.1, candidate :: tail.2)
    | some (lines, sorted) => ((lines.map sort_line) :: tail.1, sorted :: tail.2)

/-- The full-pipeline loop of `general_text_area`: one consensus string per
group; a group on which `identify_words` returns `None` makes the final
`'\n'.join` raise, hence `none`. -/
def collect_full (groups : List (List (List Rectangle))) (roi : ROI) :
    Option (List String) :=
  match groups with
  | [] => some []
  | group :: rest =>
    match process_lines group roi, collect_full rest roi with
    | some word, some words => some (word :: words)
    | _, _ => none

/-- The cheap-fallback loop of `general_text_area`: the space-joined contents
of each group's line at index 1; a group without an index 1 makes the source
raise `IndexError`, hence `none`. -/
def collect_cheap (groups : List (List (List Rectangle))) :
    Option (List String) :=
  match groups with
  | [] => some []
  | group :: rest =>
    match group[1]?, collect_cheap rest with
    | some line, some words =>
      some (String.intercalate " " (line.map Rectangle.content) :: words)
    | _, _ => none

/-- `general_text_area` from the source.  Returns the extracted text (`none`
where the Python code raises) together with the new contents of the caller's
candidate lists (each non-empty candidate has been sorted in place by
`separate_to_lines`). -/
def general_text_area (candidates : List (List Rectangle)) (roi : ROI) :
    Option String × List (List Rectangle) :=
  let collected := collect_candidate_lines candidates
  let aligned_groups := align_lines collected.1
  let max_words := get_max_words aligned_groups
  let words :=
    if aligned_groups.length ≤ 3 ∧ max_words ≤ 5 then
      collect_full aligned_groups roi
    else
      collect_cheap aligned_groups
  (words.map (fun ws => String.intercalate "\n" ws), collected.2)

/-- A sample rectangle for witnesses: unit square at the origin carrying
content "a". -/
def rect_a : Rectangle :=
  ⟨0, 1, 0, 1, "a", by norm_num, by norm_num⟩

/-- A sample rectangle for witnesses: unit square far below `rect_a`,
carrying content "b". -/
def rect_b : Rectangle :=
  ⟨0, 1, 10, 11, "b", by norm_num, by norm_num⟩

/-- A sample ROI for witnesses: nothing exceeds it. -/
def roi_all_inside : ROI := ⟨fun _ => false⟩

/-- A sample ROI for witnesses: exactly `rect_b` exceeds it. -/
def roi_b_outside : ROI := ⟨fun r => decide (r.start_y ≥ 10)⟩

/-- C9: `check_barcode_area` is true iff every sublist has length at most 1
and the total rectangle count is at least 1; in particular `[[r],[],[]]` is
accepted while `[[r,r],[]]` and `[[],[]]` are rejected. -/
theorem check_barcode_area_spec :
    (∀ candidates : List (List Rectangle),
      check_barcode_area candidates = true ↔
        ((∀ c ∈ candidates, c.length ≤ 1) ∧
          1 ≤ (candidates.map List.length).sum)) ∧
    (∀ r : Rectangle,
      check_barcode_area [[r], [], []] = true ∧
      check_barcode_area [[r, r], []] = false ∧
      check_barcode_area [[], []] = false) := by
  constructor
  · intro candidates
    unfold check_barcode_area
    simp [List.all_eq_true]
  · intro r
    refine ⟨?_, ?_, ?_⟩ <;> rfl

theorem break_threshold_nonneg (rectangles : List Rectangle) :
    0 ≤ break_threshold rectangles := by
  unfold break_threshold
  have hsum : 0 ≤ (rectangles.map Rectangle.height).sum := by
    apply List.sum_nonneg
    intro x hx
    obtain ⟨r, _, rfl⟩ := List.mem_map.mp hx
    have := r.hy
    simp only [Rectangle.height]
    linarith
  positivity

theorem lines_loop_flatten (threshold : ℚ) :
    ∀ (rest : List Rectangle) (previous_y : ℚ) (current_line : List Rectangle),
      (lines_loop threshold rest previous_y current_line).flatten =
        current_line ++ rest := by
  intro rest
  induction rest with
  | nil =>
    intro previous_y current_line
    by_cases hcur : current_line.isEmpty
    · simp [lines_loop, hcur, List.isEmpty_iff.mp hcur]
    · simp [lines_loop, hcur]
  | cons rectangle rest ih =>
    intro previous_y current_line
    by_cases hbr : |rectangle.center_y - previous_y| > threshold
    · simp [lines_loop, hbr, ih]
    · simp [lines_loop, hbr, ih]

theorem lines_loop_ne_nil (threshold : ℚ) :
    ∀ (rest : List Rectangle) (previous_y : ℚ) (current_line : List Rectangle),
      current_line ≠ [] →
      ∀ line ∈ lines_loop threshold rest previous_y current_line, line ≠ [] := by
  intro rest
  induction rest with
  | nil =>
    intro previous_y current_line hcur line hline
    have : ¬ current_line.isEmpty := by
      simpa [List.isEmpty_iff] using hcur
    simp [lines_loop, this] at hline
    subst hline
    exact hcur
  | cons rectangle rest ih =>
    intro previous_y current_line hcur line hline
    by_cases hbr : |rectangle.center_y - previous_y| > threshold
    · simp only [lines_loop, if_pos hbr, List.mem_cons] at hline
      rcases hline with rfl | hline
      · exact hcur
      · exact ih rectangle.center_y [rectangle] (by simp) line hline
    · simp only [lines_loop, if_neg hbr] at hline
      exact ih rectangle.center_y (current_line ++ [rectangle]) (by simp) line hline

theorem lines_loop_start (threshold : ℚ) (hth : 0 ≤ threshold)
    (s : Rectangle) (rest : List Rectangle) :
    lines_loop threshold (s :: rest) s.center_y [] =
      lines_loop threshold rest s.center_y [s] := by
  simp [lines_loop, hth]

theorem stable_insert_perm {α : Type} (le : α → α → Bool) (a : α) :
    ∀ l : List α, List.Perm (stable_insert le a l) (a :: l) := by
  intro l
  induction l with
  | nil => exact List.Perm.refl _
  | cons b bs ih =>
    by_cases hba : le b a
    · simp only [stable_insert, if_pos hba]
      exact (ih.cons b).trans (List.Perm.swap a b bs)
    · simp only [stable_insert, if_neg hba]
      exact List.Perm.refl _

theorem stable_sort_perm_aux {α : Type} (le : α → α → Bool) :
    ∀ (l acc : List α),
      List.Perm (l.foldl (fun acc a => stable_insert le a acc) acc) (acc ++ l) := by
  intro l
  induction l with
  | nil => intro acc; simp
  | cons x xs ih =>
    intro acc
    have h1 : (x :: xs).foldl (fun acc a => stable_insert le a acc) acc
        = xs.foldl (fun acc a => stable_insert le a acc) (stable_insert le x acc) := rfl
    rw [h1]
    refine (ih (stable_insert le x acc)).trans ?_
    refine (((stable_insert_perm le x acc).append_right xs).trans ?_)
    exact List.perm_middle.symm

theorem stable_sort_perm {α : Type} (le : α → α → Bool) (l : List α) :
    List.Perm (stable_sort le l) l := by
  simpa using stable_sort_perm_aux le l []

theorem stable_insert_pairwise {α : Type} (le : α → α → Bool)
    (htot : ∀ a b, le a b = true ∨ le b a = true)
    (htrans : ∀ a b c, le a b = true → le b c = true → le a c = true)
    (a : α) :
    ∀ l : List α, List.Pairwise (fun x y => le x y = true) l →
      List.Pairwise (fun x y => le x y = true) (stable_insert le a l) := by
  intro l
  induction l with
  | nil => intro _; simp [stable_insert]
  | cons b bs ih =>
    intro hp
    rcases List.pairwise_cons.mp hp with ⟨hb, hbs⟩
    by_cases hba : le b a
    · simp only [stable_insert, if_pos hba]
      refine List.pairwise_cons.mpr ⟨?_, ih hbs⟩
      intro c hc
      rcases List.mem_cons.mp (((stable_insert_perm le a bs).mem_iff).mp hc) with
        rfl | hc
      · exact hba
      · exact hb c hc
    · simp only [stable_insert, if_neg hba]
      have hab : le a b = true := by
        rcases htot a b with h | h
        · exact h
        · exact absurd h hba
      refine List.pairwise_cons.mpr ⟨?_, hp⟩
      intro c hc
      rcases List.mem_cons.mp hc with rfl | hc
      · exact hab
      · exact htrans a b c hab (hb c hc)

theorem stable_sort_pairwise {α : Type} (le : α → α → Bool)
    (htot : ∀ a b, le a b = true ∨ le b a = true)
    (htrans : ∀ a b c, le a b = true → le b c = true → le a c = true)
    (l : List α) :
    List.Pairwise (fun x y => le x y = true) (stable_sort le l) := by
  suffices h : ∀ (l acc : List α),
      List.Pairwise (fun x y => le x y = true) acc →
      List.Pairwise (fun x y => le x y = true)
        (l.foldl (fun acc a => stable_insert le a acc) acc) by
    exact h l [] (by simp)
  intro l
  induction l with
  | nil => intro acc h; exact h
  | cons x xs ih =>
    intro acc h
    exact ih _ (stable_insert_pairwise le htot htrans x acc h)

theorem center_le_total (a b : Rectangle) :
    center_le a b = true ∨ center_le b a = true := by
  simp only [center_le, decide_eq_true_eq]
  exact le_total a.center_y b.center_y

theorem center_le_trans (a b c : Rectangle)
    (hab : center_le a b = true) (hbc : center_le b c = true) :
    center_le a c = true := by
  simp only [center_le, decide_eq_true_eq] at *
  exact le_trans hab hbc

theorem sort_by_center_perm (rectangles : List Rectangle) :
    List.Perm (sort_by_center rectangles) rectangles :=
  stable_sort_perm center_le rectangles

theorem sort_by_center_pairwise (rectangles : List Rectangle) :
    List.Pairwise (fun a b => a.center_y ≤ b.center_y)
      (sort_by_center rectangles) := by
  have h := stable_sort_pairwise center_le center_le_total center_le_trans rectangles
  refine h.imp ?_
  intro a b hab
  simpa [center_le, decide_eq_true_eq] using hab

theorem separate_to_lines_eq (r : Rectangle) (rs : List Rectangle) :
    separate_to_lines (r :: rs) =
      some (lines_loop (break_threshold (sort_by_center (r :: rs)))
        (sort_by_center (r :: rs))
        (((sort_by_center (r :: rs)).headD r).center_y) [],
        sort_by_center (r :: rs)) := rfl

theorem sort_by_center_ne_nil (r : Rectangle) (rs : List Rectangle) :
    sort_by_center (r :: rs) ≠ [] := by
  intro h
  have hp := (sort_by_center_perm (r :: rs)).length_eq
  rw [h] at hp
  simp at hp

/-- C5: the output of `separate_to_lines` partitions the input — every input
rectangle occurs in exactly one output line (the concatenation of the lines
is a permutation of the input), the lines are ordered by ascending vertical
center, and a single-rectangle input yields exactly one line containing that
rectangle. -/
theorem separate_to_lines_partition (r : Rectangle) (rs : List Rectangle)
    (lns : List (List Rectangle)) (post : List Rectangle)
    (h : separate_to_lines (r :: rs) = some (lns, post)) :
    List.Perm lns.flatten (r :: rs) ∧
    List.Pairwise (fun l1 l2 => ∀ a ∈ l1, ∀ b ∈ l2, a.center_y ≤ b.center_y) lns ∧
    (rs = [] → lns = [[r]]) := by
  rw [separate_to_lines_eq] at h
  rw [Option.some_inj, Prod.mk.injEq] at h
  obtain ⟨h1, _⟩ := h
  have hflat : lns.flatten = sort_by_center (r :: rs) := by
    rw [← h1]
    simpa using lines_loop_flatten _ (sort_by_center (r :: rs)) _ []
  refine ⟨?_, ?_, ?_⟩
  · rw [hflat]
    exact sort_by_center_perm (r :: rs)
  · have hpair : List.Pairwise (fun a b => a.center_y ≤ b.center_y) lns.flatten := by
      rw [hflat]
      exact sort_by_center_pairwise (r :: rs)
    exact (List.pairwise_flatten.mp hpair).2
  · intro hnil
    subst hnil
    have hsingle : sort_by_center [r] = [r] := rfl
    rw [← h1, hsingle]
    show lines_loop (break_threshold [r]) [r] r.center_y [] = [[r]]
    rw [lines_loop_start _ (break_threshold_nonneg [r]) r []]
    simp [lines_loop]

/-- Witness for C5 at a one-rectangle input. -/
theorem separate_to_lines_partition_witness :
    separate_to_lines [rect_a] = some ([[rect_a]], [rect_a]) ∧
    (List.Perm [[rect_a]].flatten [rect_a] ∧
      List.Pairwise
        (fun l1 l2 => ∀ a ∈ l1, ∀ b ∈ l2, a.center_y ≤ b.center_y) [[rect_a]] ∧
      (([] : List Rectangle) = [] → [[rect_a]] = [[rect_a]])) :=
  ⟨by with_unfolding_all decide,
    separate_to_lines_partition rect_a [] [[rect_a]] [rect_a]
      (by with_unfolding_all decide)⟩

/-- C10: every line produced by `separate_to_lines` is non-empty — the first
rectangle never triggers a line break (its distance to the initial
`previous_y` is zero and the threshold is non-negative), and a break is only
emitted after at least one rectangle joined the current line. -/
theorem separate_to_lines_no_empty_line (r : Rectangle) (rs : List Rectangle)
    (lns : List (List Rectangle)) (post : List Rectangle)
    (h : separate_to_lines (r :: rs) = some (lns, post)) :
    ∀ line ∈ lns, line ≠ [] := by
  rw [separate_to_lines_eq] at h
  rw [Option.some_inj, Prod.mk.injEq] at h
  obtain ⟨h1, _⟩ := h
  obtain ⟨s0, srest, hs⟩ : ∃ s0 srest, sort_by_center (r :: rs) = s0 :: srest := by
    rcases hsort : sort_by_center (r :: rs) with _ | ⟨s0, srest⟩
    · exact absurd hsort (sort_by_center_ne_nil r rs)
    · exact ⟨s0, srest, rfl⟩
  rw [hs] at h1
  have hhead : ((s0 :: srest).headD r) = s0 := rfl
  rw [hhead] at h1
  rw [lines_loop_start _ (by rw [← hs]; exact break_threshold_nonneg _) s0 srest]
    at h1
  rw [← h1]
  exact lines_loop_ne_nil _ srest s0.center_y [s0] (by simp)

/-- Witness for C10 at a two-rectangle input forming two lines. -/
theorem separate_to_lines_no_empty_line_witness :
    separate_to_lines [rect_a, rect_b] =
      some ([[rect_a], [rect_b]], [rect_a, rect_b]) ∧
    (∀ line ∈ [[rect_a], [rect_b]], line ≠ ([] : List Rectangle)) :=
  ⟨by with_unfolding_all decide,
    separate_to_lines_no_empty_line rect_a [rect_b] [[rect_a], [rect_b]]
      [rect_a, rect_b] (by with_unfolding_all decide)⟩

theorem reduce_line_foldl (roi : ROI) :
    ∀ (line : List Rectangle) (acc : List Rectangle × Bool),
      line.foldl
        (fun acc rectangle =>
          let rectangle_exceeding := roi.exceeding_rectangle rectangle
          (if rectangle_exceeding then acc.1 else acc.1 ++ [rectangle],
            acc.2 || rectangle_exceeding)) acc =
      (acc.1 ++ line.filter (fun r => !roi.exceeding_rectangle r),
        acc.2 || line.any roi.exceeding_rectangle) := by
  intro line
  induction line with
  | nil => intro acc; simp
  | cons r rest ih =>
    intro acc
    rcases hex : roi.exceeding_rectangle r with _ | _
    · simp [List.foldl_cons, hex, ih, List.filter_cons, Bool.or_assoc]
    · simp [List.foldl_cons, hex, ih, List.filter_cons, Bool.or_assoc]

theorem reduce_line_fst (roi : ROI) (line : List Rectangle) :
    (reduce_line roi line).1 = line.filter (fun r => !roi.exceeding_rectangle r) := by
  unfold reduce_line
  rw [reduce_line_foldl roi line ([], false)]
  simp

theorem reduce_line_snd (roi : ROI) (line : List Rectangle) :
    (reduce_line roi line).2 = line.any roi.exceeding_rectangle := by
  unfold reduce_line
  rw [reduce_line_foldl roi line ([], false)]
  simp

/-- C2: the boundary reconciler returns its input unchanged when the per-line
exceedance indicators are unanimous (all true or all false), and the reduced
lines when they are mixed; in the mixed case every remaining rectangle does
not exceed the ROI and line count and order are preserved (line `i` of the
output is the reduction of line `i` of the input). -/
theorem filter_exceeding_words_spec (lines : List (List Rectangle)) (roi : ROI) :
    (((∀ l ∈ lines, l.any roi.exceeding_rectangle = true) ∨
        (∀ l ∈ lines, l.any roi.exceeding_rectangle = false)) →
      filter_exceeding_words lines roi = lines) ∧
    (((∃ l ∈ lines, l.any roi.exceeding_rectangle = true) ∧
        (∃ l ∈ lines, l.any roi.exceeding_rectangle = false)) →
      (filter_exceeding_words lines roi =
          lines.map (fun l => l.filter (fun r => !roi.exceeding_rectangle r)) ∧
        (∀ l ∈ filter_exceeding_words lines roi, ∀ r ∈ l,
          roi.exceeding_rectangle r = false) ∧
        (filter_exceeding_words lines roi).length = lines.length)) := by
  have hind : lines.map (fun line => (reduce_line roi line).2) =
      lines.map (fun line => line.any roi.exceeding_rectangle) :=
    List.map_congr_left (fun l _ => reduce_line_snd roi l)
  have hred : lines.map (fun line => (reduce_line roi line).1) =
      lines.map (fun l => l.filter (fun r => !roi.exceeding_rectangle r)) :=
    List.map_congr_left (fun l _ => reduce_line_fst roi l)
  constructor
  · intro hun
    unfold filter_exceeding_words
    rw [hind]
    rcases hun with hall | hnone
    · have : (lines.map (fun l => l.any roi.exceeding_rectangle)).all
          (fun i => i) = true := by
        rw [List.all_eq_true]
        intro b hb
        obtain ⟨l, hl, rfl⟩ := List.mem_map.mp hb
        exact hall l hl
      simp [this]
    · have : (lines.map (fun l => l.any roi.exceeding_rectangle)).any
          (fun i => i) = false := by
        rw [Bool.eq_false_iff]
        intro hany
        obtain ⟨b, hb, hbt⟩ := List.any_eq_true.mp hany
        obtain ⟨l, hl, rfl⟩ := List.mem_map.mp hb
        rw [hnone l hl] at hbt
        exact Bool.false_ne_true hbt
      simp [this]
  · intro hmix
    obtain ⟨⟨lt, hlt, hltt⟩, ⟨lf, hlf, hlff⟩⟩ := hmix
    have heq : filter_exceeding_words lines roi =
        lines.map (fun l => l.filter (fun r => !roi.exceeding_rectangle r)) := by
      unfold filter_exceeding_words
      rw [hind, hred]
      have hall : (lines.map (fun l => l.any roi.exceeding_rectangle)).all
          (fun i => i) = false := by
        rw [Bool.eq_false_iff]
        intro hall
        have := List.all_eq_true.mp hall _ (List.mem_map_of_mem _ hlf)
        rw [hlff] at this
        exact Bool.false_ne_true this
      have hany : (lines.map (fun l => l.any roi.exceeding_rectangle)).any
          (fun i => i) = true := by
        rw [List.any_eq_true]
        exact ⟨_, List.mem_map_of_mem _ hlt, hltt⟩
      simp [hall, hany]
    refine ⟨heq, ?_, ?_⟩
    · intro l hl r hr
      rw [heq] at hl
      obtain ⟨l0, _, rfl⟩ := List.mem_map.mp hl
      have := List.of_mem_filter hr
      simpa using this
    · rw [heq]
      exact List.length_map lines _

/-- Witness for C2: a mixed-signal input is reduced. -/
theorem filter_exceeding_words_spec_witness :
    ((∃ l ∈ [[rect_b], [rect_a]], l.any (ROI.exceeding_rectangle roi_b_outside) = true) ∧
      (∃ l ∈ [[rect_b], [rect_a]], l.any (ROI.exceeding_rectangle roi_b_outside) = false)) ∧
    (filter_exceeding_words [[rect_b], [rect_a]] roi_b_outside =
        [[rect_b], [rect_a]].map
          (fun l => l.filter (fun r => !roi_b_outside.exceeding_rectangle r)) ∧
      (∀ l ∈ filter_exceeding_words [[rect_b], [rect_a]] roi_b_outside,
        ∀ r ∈ l, roi_b_outside.exceeding_rectangle r = false) ∧
      (filter_exceeding_words [[rect_b], [rect_a]] roi_b_outside).length =
        [[rect_b], [rect_a]].length) :=
  ⟨by with_unfolding_all decide,
    (filter_exceeding_words_spec [[rect_b], [rect_a]] roi_b_outside).2
      (by with_unfolding_all decide)⟩

theorem foldl_min_le_init (init : ℚ) :
    ∀ rs : List Rectangle, rs.foldl (fun acc q => min acc q.start_y) init ≤ init := by
  intro rs
  induction rs generalizing init with
  | nil => exact le_refl init
  | cons r rest ih =>
    exact le_trans (ih (min init r.start_y)) (min_le_left _ _)

theorem foldl_min_le_mem (init : ℚ) :
    ∀ (rs : List Rectangle) (r : Rectangle), r ∈ rs →
      rs.foldl (fun acc q => min acc q.start_y) init ≤ r.start_y := by
  intro rs
  induction rs generalizing init with
  | nil => intro r h; exact absurd h (List.not_mem_nil r)
  | cons q rest ih =>
    intro r hr
    rcases List.mem_cons.mp hr with rfl | hr
    · exact le_trans (foldl_min_le_init _ rest) (min_le_right _ _)
    · exact ih (min init q.start_y) r hr

theorem init_le_foldl_max (init : ℚ) :
    ∀ rs : List Rectangle, init ≤ rs.foldl (fun acc q => max acc q.end_y) init := by
  intro rs
  induction rs generalizing init with
  | nil => exact le_refl init
  | cons r rest ih =>
    exact le_trans (le_max_left _ _) (ih (max init r.end_y))

theorem mem_le_foldl_max (init : ℚ) :
    ∀ (rs : List Rectangle) (r : Rectangle), r ∈ rs →
      r.end_y ≤ rs.foldl (fun acc q => max acc q.end_y) init := by
  intro rs
  induction rs generalizing init with
  | nil => intro r h; exact absurd h (List.not_mem_nil r)
  | cons q rest ih =>
    intro r hr
    rcases List.mem_cons.mp hr with rfl | hr
    · exact le_trans (le_max_right _ _) (init_le_foldl_max _ rest)
    · exact ih (max init q.end_y) r hr

theorem line_top_le_of_mem {line : List Rectangle} {r : Rectangle} (hr : r ∈ line) :
    line_top line ≤ r.start_y := by
  match line, hr with
  | q :: rest, hr =>
    rcases List.mem_cons.mp hr with rfl | hr
    · exact foldl_min_le_init _ rest
    · exact foldl_min_le_mem _ rest r hr

theorem le_line_bottom_of_mem {line : List Rectangle} {r : Rectangle} (hr : r ∈ line) :
    r.end_y ≤ line_bottom line := by
  match line, hr with
  | q :: rest, hr =>
    rcases List.mem_cons.mp hr with rfl | hr
    · exact init_le_foldl_max _ rest
    · exact mem_le_foldl_max _ rest r hr

theorem line_center_mem_span (line : List Rectangle) (hne : line ≠ []) :
    line_top line ≤ line_center line ∧ line_center line ≤ line_bottom line := by
  have hn : 0 < (line.length : ℚ) := by
    have : 0 < line.length := List.length_pos.mpr hne
    exact_mod_cast this
  have hlow : ∀ x ∈ line.map Rectangle.center_y, line_top line ≤ x := by
    intro x hx
    obtain ⟨r, hr, rfl⟩ := List.mem_map.mp hx
    have h1 := line_top_le_of_mem hr
    have h2 := r.hy
    have : r.start_y ≤ r.center_y := by
      unfold Rectangle.center_y
      linarith
    linarith
  have hhigh : ∀ x ∈ line.map Rectangle.center_y, x ≤ line_bottom line := by
    intro x hx
    obtain ⟨r, hr, rfl⟩ := List.mem_map.mp hx
    have h1 := le_line_bottom_of_mem hr
    have h2 := r.hy
    have : r.center_y ≤ r.end_y := by
      unfold Rectangle.center_y
      linarith
    linarith
  have hsumlow : (line.length : ℚ) * line_top line ≤
      (line.map Rectangle.center_y).sum := by
    have := List.card_nsmul_le_sum (line.map Rectangle.center_y) (line_top line) hlow
    rw [nsmul_eq_mul] at this
    simpa using this
  have hsumhigh : (line.map Rectangle.center_y).sum ≤
      (line.length : ℚ) * line_bottom line := by
    have := List.sum_le_card_nsmul (line.map Rectangle.center_y) (line_bottom line) hhigh
    rw [nsmul_eq_mul] at this
    simpa using this
  constructor
  · rw [line_center, le_div_iff₀ hn]
    linarith
  · rw [line_center, div_le_iff₀ hn]
    linarith

/-- The C6 invariant: every group's representative center lies within every
member line's vertical span. -/
def groups_inv (gs : Groups) : Prop :=
  ∀ p ∈ gs, ∀ line ∈ p.2, line_top line ≤ p.1 ∧ p.1 ≤ line_bottom line

theorem assign_line_match_eq (gs : Groups) (line : List Rectangle)
    (hmatch : ∃ p ∈ gs, line_top line ≤ p.1 ∧ p.1 ≤ line_bottom line) :
    assign_line gs line = gs.map (fun p =>
      if line_bottom line ≥ p.1 ∧ p.1 ≥ line_top line then (p.1, p.2 ++ [line])
      else p) := by
  unfold assign_line
  have hany : gs.any (fun p =>
      decide (line_bottom line ≥ p.1) && decide (p.1 ≥ line_top line)) = true := by
    rw [List.any_eq_true]
    obtain ⟨p, hp, h1, h2⟩ := hmatch
    exact ⟨p, hp, by simp [ge_iff_le, h1, h2]⟩
  simp only [hany, if_true]

theorem assign_line_no_match_eq (gs : Groups) (line : List Rectangle)
    (hne : line ≠ [])
    (hnomatch : ∀ p ∈ gs, ¬ (line_top line ≤ p.1 ∧ p.1 ≤ line_bottom line)) :
    assign_line gs line = gs ++ [(line_center line, [line])] := by
  unfold assign_line
  have hany : gs.any (fun p =>
      decide (line_bottom line ≥ p.1) && decide (p.1 ≥ line_top line)) = false := by
    rw [Bool.eq_false_iff]
    intro h
    obtain ⟨p, hp, hcond⟩ := List.any_eq_true.mp h
    rw [Bool.and_eq_true, decide_eq_true_eq, decide_eq_true_eq] at hcond
    exact hnomatch p hp ⟨hcond.2, hcond.1⟩
  simp only [hany, Bool.false_eq_true, if_false]
  unfold dict_insert
  have hkey : gs.any (fun p => p.1 = line_center line) = false := by
    rw [Bool.eq_false_iff]
    intro h
    obtain ⟨p, hp, hkey⟩ := List.any_eq_true.mp h
    rw [decide_eq_true_eq] at hkey
    obtain ⟨h1, h2⟩ := line_center_mem_span line hne
    exact hnomatch p hp ⟨by rw [hkey]; exact h1, by rw [hkey]; exact h2⟩
  simp only [hkey, Bool.false_eq_true, if_false]

theorem assign_line_inv (gs : Groups) (line : List Rectangle)
    (hne : line ≠ []) (hinv : groups_inv gs) :
    groups_inv (assign_line gs line) := by
  by_cases hmatch : ∃ p ∈ gs, line_top line ≤ p.1 ∧ p.1 ≤ line_bottom line
  · rw [assign_line_match_eq gs line hmatch]
    intro p hp l hl
    obtain ⟨q, hq, rfl⟩ := List.mem_map.mp hp
    by_cases hcond : line_bottom line ≥ q.1 ∧ q.1 ≥ line_top line
    · simp only [if_pos hcond] at hl ⊢
      rcases List.mem_append.mp hl with hl | hl
      · exact hinv q hq l hl
      · rw [List.mem_singleton] at hl
        subst hl
        exact ⟨hcond.2, hcond.1⟩
    · simp only [if_neg hcond] at hl ⊢
      exact hinv q hq l hl
  · rw [assign_line_no_match_eq gs line hne
      (fun p hp hcontra => hmatch ⟨p, hp, hcontra⟩)]
    intro p hp l hl
    rcases List.mem_append.mp hp with hp | hp
    · exact hinv p hp l hl
    · rw [List.mem_singleton] at hp
      subst hp
      rw [List.mem_singleton] at hl
      subst hl
      exact line_center_mem_span _ hne

theorem foldl_assign_inv (lines : List (List Rectangle)) :
    ∀ gs : Groups, groups_inv gs → (∀ line ∈ lines, line ≠ []) →
      groups_inv (lines.foldl assign_line gs) := by
  induction lines with
  | nil => intro gs hinv _; exact hinv
  | cons line rest ih =>
    intro gs hinv hne
    exact ih (assign_line gs line)
      (assign_line_inv gs line (hne line (List.mem_cons_self _ _)) hinv)
      (fun l hl => hne l (List.mem_cons_of_mem _ hl))

/-- C6: in every group built by `align_lines`, the group's representative
center lies within every member line's `[top, bottom]` span (including the
founding line's); moreover a line is appended to every existing group whose
representative center its span covers, and opens a new group keyed by its own
mean center exactly when it matched none. -/
theorem align_lines_invariant (candidate_lines : List (List (List Rectangle)))
    (h : ∀ lines ∈ candidate_lines, ∀ line ∈ lines, line ≠ []) :
    (∀ p ∈ align_lines_groups candidate_lines, ∀ line ∈ p.2,
      line_top line ≤ p.1 ∧ p.1 ≤ line_bottom line) ∧
    (∀ (gs : Groups) (line : List Rectangle), line ≠ [] →
      ((∃ p ∈ gs, line_top line ≤ p.1 ∧ p.1 ≤ line_bottom line) →
        assign_line gs line = gs.map (fun p =>
          if line_bottom line ≥ p.1 ∧ p.1 ≥ line_top line then (p.1, p.2 ++ [line])
          else p)) ∧
      ((∀ p ∈ gs, ¬ (line_top line ≤ p.1 ∧ p.1 ≤ line_bottom line)) →
        assign_line gs line = gs ++ [(line_center line, [line])])) := by
  constructor
  · unfold align_lines_groups
    have main : ∀ (cls : List (List (List Rectangle))) (gs : Groups),
        groups_inv gs → (∀ lines ∈ cls, ∀ line ∈ lines, line ≠ []) →
        groups_inv (cls.foldl (fun groups lines => lines.foldl assign_line groups) gs) := by
      intro cls
      induction cls with
      | nil => intro gs hinv _; exact hinv
      | cons lines rest ih =>
        intro gs hinv hne
        exact ih (lines.foldl assign_line gs)
          (foldl_assign_inv lines gs hinv (hne lines (List.mem_cons_self _ _)))
          (fun ls hls => hne ls (List.mem_cons_of_mem _ hls))
    exact main candidate_lines [] (fun p hp => absurd hp (List.not_mem_nil p)) h
  · intro gs line hne
    exact ⟨assign_line_match_eq gs line,
      assign_line_no_match_eq gs line hne⟩

/-- Witness for C6 at a two-line input whose lines share a group. -/
theorem align_lines_invariant_witness :
    (∀ lines ∈ [[[rect_a], [rect_b]]], ∀ line ∈ lines, line ≠ ([] : List Rectangle)) ∧
    (∀ p ∈ align_lines_groups [[[rect_a], [rect_b]]], ∀ line ∈ p.2,
      line_top line ≤ p.1 ∧ p.1 ≤ line_bottom line) :=
  ⟨by with_unfolding_all decide,
    (align_lines_invariant [[[rect_a], [rect_b]]]
      (by with_unfolding_all decide)).1⟩

/-- C7: contrary to the spec's requirement of an explicit domain error, the
source's `if/elif` chain has no branch for more than 3 surviving sources, so
`identify_words` silently returns `None` (here: `none`) on every list of more
than three strings. -/
theorem identify_words_more_than_three (a b c d : String) (rest : List String) :
    identify_words (a :: b :: c :: d :: rest) = none := rfl

theorem mem_allm (x : List Char) :
    List.replicate x.length AOp.m ∈ alignments x x := by
  induction x with
  | nil => simp [alignments]
  | cons c cs ih =>
    rw [show alignments (c :: cs) (c :: cs) =
      ((alignments cs cs).map (fun ops => AOp.m :: ops)) ++
        ((alignments cs (c :: cs)).map (fun ops => AOp.g2 :: ops)) ++
        ((alignments (c :: cs) cs).map (fun ops => AOp.g1 :: ops)) from by
        rw [alignments]]
    refine List.mem_append.mpr (Or.inl (List.mem_append.mpr (Or.inl ?_)))
    rw [List.length_cons, List.replicate_succ]
    exact List.mem_map_of_mem _ ih

theorem score_allm (x : List Char) :
    ∀ prev : Option AOp,
      score_aux prev x x (List.replicate x.length AOp.m) = x.length := by
  induction x with
  | nil => intro prev; rfl
  | cons c cs ih =>
    intro prev
    rw [List.length_cons, List.replicate_succ]
    show match_score c c + score_aux (some AOp.m) cs cs
      (List.replicate cs.length AOp.m) = ((cs.length + 1 : ℕ) : Int)
    rw [ih (some AOp.m)]
    simp [match_score]
    omega

theorem mem_alignments_inv {ops : List AOp} {x y : List Char}
    (h : ops ∈ alignments x y) :
    (x = [] ∧ y = [] ∧ ops = []) ∨
    (∃ b ys tl, y = b :: ys ∧ ops = AOp.g1 :: tl ∧ tl ∈ alignments x ys) ∨
    (∃ a xs tl, x = a :: xs ∧ ops = AOp.g2 :: tl ∧ tl ∈ alignments xs y) ∨
    (∃ a xs b ys tl, x = a :: xs ∧ y = b :: ys ∧ ops = AOp.m :: tl ∧
      tl ∈ alignments xs ys) := by
  match x, y with
  | [], [] =>
    simp only [alignments, List.mem_singleton] at h
    exact Or.inl ⟨rfl, rfl, h⟩
  | [], b :: ys =>
    simp only [alignments, List.mem_map] at h
    obtain ⟨tl, htl, rfl⟩ := h
    exact Or.inr (Or.inl ⟨b, ys, tl, rfl, rfl, htl⟩)
  | a :: xs, [] =>
    simp only [alignments, List.mem_map] at h
    obtain ⟨tl, htl, rfl⟩ := h
    exact Or.inr (Or.inr (Or.inl ⟨a, xs, tl, rfl, rfl, htl⟩))
  | a :: xs, b :: ys =>
    simp only [alignments, List.mem_append, List.mem_map] at h
    rcases h with (⟨tl, htl, rfl⟩ | ⟨tl, htl, rfl⟩) | ⟨tl, htl, rfl⟩
    · exact Or.inr (Or.inr (Or.inr ⟨a, xs, b, ys, tl, rfl, rfl, rfl, htl⟩))
    · exact Or.inr (Or.inr (Or.inl ⟨a, xs, tl, rfl, rfl, htl⟩))
    · exact Or.inr (Or.inl ⟨b, ys, tl, rfl, rfl, htl⟩)

theorem count_m_le :
    ∀ (ops : List AOp) (x y : List Char), ops ∈ alignments x y →
      count_m ops ≤ x.length ∧ count_m ops ≤ y.length := by
  intro ops
  induction ops with
  | nil => intro x y _; exact ⟨Nat.zero_le _, Nat.zero_le _⟩
  | cons op tl ih =>
    intro x y h
    rcases mem_alignments_inv h with
      ⟨_, _, habs⟩ | ⟨b, ys, tl', hy, heq, htl⟩ |
        ⟨a, xs, tl', hx, heq, htl⟩ | ⟨a, xs, b, ys, tl', hx, hy, heq, htl⟩
    · exact absurd habs (List.cons_ne_nil op tl)
    · obtain ⟨rfl, rfl⟩ : op = AOp.g1 ∧ tl = tl' := by
        injection heq with h1 h2; exact ⟨h1, h2⟩
      obtain ⟨ih1, ih2⟩ := ih x ys htl
      subst hy
      exact ⟨by simpa [count_m] using ih1, by simp [count_m]; omega⟩
    · obtain ⟨rfl, rfl⟩ : op = AOp.g2 ∧ tl = tl' := by
        injection heq with h1 h2; exact ⟨h1, h2⟩
      obtain ⟨ih1, ih2⟩ := ih xs y htl
      subst hx
      exact ⟨by simp [count_m]; omega, by simpa [count_m] using ih2⟩
    · obtain ⟨rfl, rfl⟩ : op = AOp.m ∧ tl = tl' := by
        injection heq with h1 h2; exact ⟨h1, h2⟩
      obtain ⟨ih1, ih2⟩ := ih xs ys htl
      subst hx
      subst hy
      exact ⟨by simp [count_m]; omega, by simp [count_m]; omega⟩

theorem match_score_le_one (a b : Char) : match_score a b ≤ 1 := by
  unfold match_score
  split <;> omega

theorem gap_score_le_neg_one (prev : Option AOp) (cur : AOp) :
    gap_score prev cur ≤ -1 := by
  unfold gap_score
  split <;> omega

theorem score_le_counts :
    ∀ (ops : List AOp) (x y : List Char) (prev : Option AOp),
      ops ∈ alignments x y →
      score_aux prev x y ops ≤ (count_m ops : Int) - (count_g ops : Int) := by
  intro ops
  induction ops with
  | nil => intro x y prev _; simp [score_aux, count_m, count_g]
  | cons op tl ih =>
    intro x y prev h
    rcases mem_alignments_inv h with
      ⟨_, _, habs⟩ | ⟨b, ys, tl', hy, heq, htl⟩ |
        ⟨a, xs, tl', hx, heq, htl⟩ | ⟨a, xs, b, ys, tl', hx, hy, heq, htl⟩
    · exact absurd habs (List.cons_ne_nil op tl)
    · obtain ⟨rfl, rfl⟩ : op = AOp.g1 ∧ tl = tl' := by
        injection heq with h1 h2; exact ⟨h1, h2⟩
      subst hy
      have hstep : score_aux prev x (b :: ys) (AOp.g1 :: tl) =
          gap_score prev AOp.g1 + score_aux (some AOp.g1) x ys tl := by
        cases x <;> rfl
      rw [hstep]
      have h1 := gap_score_le_neg_one prev AOp.g1
      have h2 := ih x ys (some AOp.g1) htl
      simp only [count_m, count_g]
      push_cast
      omega
    · obtain ⟨rfl, rfl⟩ : op = AOp.g2 ∧ tl = tl' := by
        injection heq with h1 h2; exact ⟨h1, h2⟩
      subst hx
      have hstep : score_aux prev (a :: xs) y (AOp.g2 :: tl) =
          gap_score prev AOp.g2 + score_aux (some AOp.g2) xs y tl := by
        cases y <;> rfl
      rw [hstep]
      have h1 := gap_score_le_neg_one prev AOp.g2
      have h2 := ih xs y (some AOp.g2) htl
      simp only [count_m, count_g]
      push_cast
      omega
    · obtain ⟨rfl, rfl⟩ : op = AOp.m ∧ tl = tl' := by
        injection heq with h1 h2; exact ⟨h1, h2⟩
      subst hx
      subst hy
      have hstep : score_aux prev (a :: xs) (b :: ys) (AOp.m :: tl) =
          match_score a b + score_aux (some AOp.m) xs ys tl := rfl
      rw [hstep]
      have h1 := match_score_le_one a b
      have h2 := ih xs ys (some AOp.m) htl
      simp only [count_m, count_g]
      push_cast
      omega

theorem render_nogap :
    ∀ (ops : List AOp) (x y : List Char), ops ∈ alignments x y →
      count_g ops = 0 → render_first x ops = x := by
  intro ops
  induction ops with
  | nil =>
    intro x y h _
    rcases mem_alignments_inv h with
      ⟨rfl, _, _⟩ | ⟨_, _, _, _, habs, _⟩ | ⟨_, _, _, _, habs, _⟩ |
        ⟨_, _, _, _, _, _, _, habs, _⟩
    · rfl
    · exact absurd habs.symm (List.cons_ne_nil _ _)
    · exact absurd habs.symm (List.cons_ne_nil _ _)
    · exact absurd habs.symm (List.cons_ne_nil _ _)
  | cons op tl ih =>
    intro x y h hg
    rcases mem_alignments_inv h with
      ⟨_, _, habs⟩ | ⟨b, ys, tl', hy, heq, htl⟩ |
        ⟨a, xs, tl', hx, heq, htl⟩ | ⟨a, xs, b, ys, tl', hx, hy, heq, htl⟩
    · exact absurd habs (List.cons_ne_nil op tl)
    · obtain ⟨rfl, rfl⟩ : op = AOp.g1 ∧ tl = tl' := by
        injection heq with h1 h2; exact ⟨h1, h2⟩
      simp [count_g] at hg
    · obtain ⟨rfl, rfl⟩ : op = AOp.g2 ∧ tl = tl' := by
        injection heq with h1 h2; exact ⟨h1, h2⟩
      simp [count_g] at hg
    · obtain ⟨rfl, rfl⟩ : op = AOp.m ∧ tl = tl' := by
        injection heq with h1 h2; exact ⟨h1, h2⟩
      subst hx
      have hgtl : count_g tl = 0 := by simpa [count_g] using hg
      show a :: render_first xs tl = a :: xs
      rw [ih xs ys htl hgtl]

theorem foldl_best_mem {α : Type} (f : α → Int) :
    ∀ (os : List α) (o : α),
      os.foldl (fun best cand => if f best < f cand then cand else best) o ∈ o :: os := by
  intro os
  induction os with
  | nil => intro o; simp
  | cons c cs ih =>
    intro o
    rw [List.foldl_cons]
    rcases List.mem_cons.mp (ih (if f o < f c then c else o)) with heq | hmem
    · rw [heq]
      by_cases hoc : f o < f c
      · rw [if_pos hoc]
        exact List.mem_cons_of_mem _ (List.mem_cons_self _ _)
      · rw [if_neg hoc]
        exact List.mem_cons_self _ _
    · exact List.mem_cons_of_mem _ (List.mem_cons_of_mem _ hmem)

theorem foldl_best_le {α : Type} (f : α → Int) :
    ∀ (os : List α) (o : α) (a : α), a ∈ o :: os →
      f a ≤ f (os.foldl (fun best cand => if f best < f cand then cand else best) o) := by
  intro os
  induction os with
  | nil =>
    intro o a ha
    rcases List.mem_cons.mp ha with rfl | h
    · simp
    · exact absurd h (List.not_mem_nil a)
  | cons c cs ih =>
    intro o a ha
    rw [List.foldl_cons]
    have hhead : f (if f o < f c then c else o) ≤
        f (cs.foldl (fun best cand => if f best < f cand then cand else best)
          (if f o < f c then c else o)) :=
      ih _ _ (List.mem_cons_self _ _)
    rcases List.mem_cons.mp ha with rfl | ha
    · by_cases hoc : f a < f c
      · simp only [if_pos hoc] at hhead ⊢
        exact le_trans (le_of_lt hoc) hhead
      · simp only [if_neg hoc] at hhead ⊢
        exact hhead
    · rcases List.mem_cons.mp ha with rfl | ha
      · by_cases hoc : f o < f a
        · simp only [if_pos hoc] at hhead ⊢
          exact hhead
        · simp only [if_neg hoc] at hhead ⊢
          exact le_trans (le_of_not_lt hoc) hhead
      · exact ih _ a (List.mem_cons_of_mem _ ha)

theorem best_alignment_spec (x y : List Char) (o : List AOp) (os : List (List AOp))
    (heq : alignments x y = o :: os) :
    best_alignment x y ∈ alignments x y ∧
    ∀ a ∈ alignments x y, score x y a ≤ score x y (best_alignment x y) := by
  have hbest : best_alignment x y =
      os.foldl (fun best cand => if score x y best < score x y cand then cand else best)
        o := by
    simp only [best_alignment, heq]
  constructor
  · rw [hbest, heq]
    exact foldl_best_mem (score x y) os o
  · intro a ha
    rw [heq] at ha
    rw [hbest]
    exact foldl_best_le (score x y) os o a ha

theorem align_self (s : List Char) :
    render_first s (best_alignment s s) = s := by
  obtain ⟨o, os, heq⟩ : ∃ o os, alignments s s = o :: os := by
    rcases h : alignments s s with _ | ⟨o, os⟩
    · exact absurd (mem_allm s) (by rw [h]; exact List.not_mem_nil _)
    · exact ⟨o, os, rfl⟩
  obtain ⟨hmem, hmax⟩ := best_alignment_spec s s o os heq
  have h1 : score s s (List.replicate s.length AOp.m) = (s.length : Int) :=
    score_allm s none
  have h2 := hmax _ (mem_allm s)
  have h3 : score s s (best_alignment s s) ≤
      (count_m (best_alignment s s) : Int) - (count_g (best_alignment s s) : Int) :=
    score_le_counts _ s s none hmem
  have h4 := (count_m_le _ s s hmem).1
  have h5 : count_g (best_alignment s s) = 0 := by omega
  exact render_nogap _ s s hmem h5

theorem align_pairwise_self (s : String) : align_pairwise s s = s := by
  unfold align_pairwise
  rw [align_self s.toList]
  cases s
  rfl

theorem foldl_insert_all_eq :
    ∀ (chars : List Char) (c : Char) (j : ℕ), (∀ x ∈ chars, x = c) →
      chars.foldl insert_count [(c, j)] = [(c, j + chars.length)] := by
  intro chars
  induction chars with
  | nil => intro c j _; simp
  | cons x rest ih =>
    intro c j h
    have hx : x = c := h x (List.mem_cons_self _ _)
    subst hx
    have hstep : insert_count [(x, j)] x = [(x, j + 1)] := by
      simp [insert_count]
    rw [List.foldl_cons, hstep,
      ih x (j + 1) (fun z hz => h z (List.mem_cons_of_mem _ hz))]
    have : j + 1 + rest.length = j + (rest.length + 1) := by omega
    rw [this]
    rfl

theorem vote_allc (chars : List Char) (c : Char) (hne : chars ≠ [])
    (h : ∀ x ∈ chars, x = c) :
    max_by_count (build_counts chars) = c := by
  match chars, hne with
  | x :: rest, _ =>
    have hx : x = c := h x (List.mem_cons_self _ _)
    subst hx
    have hfirst : insert_count [] x = [(x, 1)] := rfl
    unfold build_counts
    rw [List.foldl_cons, hfirst,
      foldl_insert_all_eq rest x 1 (fun z hz => h z (List.mem_cons_of_mem _ hz))]
    rfl

theorem columns_aux_const (l : List Char) :
    ∀ rest : List (List Char), (∀ r ∈ rest, r = l) →
      (columns_aux l rest).map (fun col => max_by_count (build_counts col)) = l := by
  induction l with
  | nil => intro rest _; rfl
  | cons c cs ih =>
    intro rest h
    have hany : rest.any (fun r => r.isEmpty) = false := by
      rw [List.any_eq_false]
      intro r hr
      rw [h r hr]
      simp
    have hcols : columns_aux (c :: cs) rest =
        (c :: rest.map (fun r => r.headD ' ')) ::
          columns_aux cs (rest.map List.tail) := by
      simp only [columns_aux, hany, Bool.false_eq_true, if_false]
    rw [hcols, List.map_cons]
    have hvote : max_by_count
        (build_counts (c :: rest.map (fun r => r.headD ' '))) = c := by
      apply vote_allc _ c (List.cons_ne_nil _ _)
      intro x hx
      rcases List.mem_cons.mp hx with rfl | hx
      · rfl
      · obtain ⟨r, hr, rfl⟩ := List.mem_map.mp hx
        rw [h r hr]
        rfl
    have htails : ∀ r ∈ rest.map List.tail, r = cs := by
      intro r hr
      obtain ⟨r0, hr0, rfl⟩ := List.mem_map.mp hr
      rw [h r0 hr0]
      rfl
    rw [hvote, ih (rest.map List.tail) htails]

theorem foldl_max_all_eq :
    ∀ (lens : List ℕ) (n : ℕ), (∀ x ∈ lens, x = n) → lens.foldl Nat.max n = n := by
  intro lens
  induction lens with
  | nil => intro n _; rfl
  | cons x rest ih =>
    intro n h
    have hx : x = n := h x (List.mem_cons_self _ _)
    subst hx
    rw [List.foldl_cons, show Nat.max x x = x by simp]
    exact ih x (fun z hz => h z (List.mem_cons_of_mem _ hz))

theorem ljust_exact (row : List Char) : ljust row row.length = row := by
  simp [ljust]

theorem vote_string_const (s0 : String) (rest : List String)
    (h : ∀ x ∈ rest, x = s0) : vote_string (s0 :: rest) = s0 := by
  have hrows : ∀ r ∈ rest.map String.toList, r = s0.toList := by
    intro r hr
    obtain ⟨x, hx, rfl⟩ := List.mem_map.mp hr
    rw [h x hx]
  have hlens : ∀ k ∈ (rest.map String.toList).map List.length,
      k = s0.toList.length := by
    intro k hk
    obtain ⟨r, hr, rfl⟩ := List.mem_map.mp hk
    rw [hrows r hr]
  have hmax : max_row_length ((s0 :: rest).map String.toList) =
      s0.toList.length := by
    unfold max_row_length
    rw [List.map_cons, List.map_cons, List.foldl_cons,
      show Nat.max 0 s0.toList.length = s0.toList.length by simp]
    exact foldl_max_all_eq _ _ hlens
  have hpad : pad_rows ((s0 :: rest).map String.toList) s0.toList.length =
      (s0 :: rest).map String.toList := by
    unfold pad_rows
    have hcongr : ∀ r ∈ (s0 :: rest).map String.toList,
        ljust r s0.toList.length = id r := by
      intro r hr
      obtain ⟨x, hx, rfl⟩ := List.mem_map.mp hr
      have hxs : x = s0 := by
        rcases List.mem_cons.mp hx with rfl | hx2
        · rfl
        · exact h x hx2
      rw [hxs]
      exact ljust_exact _
    rw [List.map_congr_left hcongr, List.map_id]
  unfold vote_string
  rw [hmax, hpad, List.map_cons]
  show String.mk ((columns_aux s0.toList (rest.map String.toList)).map
    (fun col => max_by_count (build_counts col))) = s0
  rw [columns_aux_const s0.toList (rest.map String.toList) hrows]
  cases s0
  rfl

/-- C4: consensus round-trip — for every string `s` and source count
`n ∈ {1, 2, 3}`, `identify_words` on `n` copies of `s` returns exactly `s`:
the single-source branch returns its input, and the two- and three-source
alignment-and-voting branches leave identical inputs unchanged. -/
theorem identify_words_roundtrip (s : String) (n : ℕ) (h1 : 1 ≤ n) (h3 : n ≤ 3) :
    identify_words (List.replicate n s) = some s := by
  interval_cases n
  · show identify_words [s] = some s
    rfl
  · show majority_vote [align_pairwise s s, align_pairwise s s] = some s
    rw [align_pairwise_self]
    show some (vote_string (s :: [s])) = some s
    rw [vote_string_const s [s] (by intro x hx; simpa using hx)]
  · show majority_vote
      [align_pairwise (align_pairwise s s) (align_pairwise s s),
        align_pairwise (align_pairwise s s) (align_pairwise s s),
        align_pairwise (align_pairwise s s) (align_pairwise s s)] = some s
    simp only [align_pairwise_self]
    show some (vote_string (s :: [s, s])) = some s
    rw [vote_string_const s [s, s]
      (by intro x hx; rcases List.mem_cons.mp hx with rfl | hx2
          · rfl
          · simpa using hx2)]

/-- Witness for C4 at `s = "ab"`, `n = 3`. -/
theorem identify_words_roundtrip_witness :
    1 ≤ 3 ∧ 3 ≤ 3 ∧ identify_words (List.replicate 3 "ab") = some "ab" :=
  ⟨by decide, by decide, identify_words_roundtrip "ab" 3 (by decide) (by decide)⟩

theorem mem_foldl_first_seen :
    ∀ (p : List Char) (acc : List Char) (x : Char),
      x ∈ p.foldl (fun acc c => if c ∈ acc then acc else acc ++ [c]) acc ↔
        x ∈ acc ∨ x ∈ p := by
  intro p
  induction p with
  | nil => intro acc x; simp
  | cons c rest ih =>
    intro acc x
    rw [List.foldl_cons, ih]
    by_cases hc : c ∈ acc
    · rw [if_pos hc]
      constructor
      · rintro (h | h)
        · exact Or.inl h
        · exact Or.inr (List.mem_cons_of_mem _ h)
      · rintro (h | h)
        · exact Or.inl h
        · rcases List.mem_cons.mp h with rfl | h
          · exact Or.inl hc
          · exact Or.inr h
    · rw [if_neg hc]
      constructor
      · rintro (h | h)
        · rcases List.mem_append.mp h with h | h
          · exact Or.inl h
          · exact Or.inr (List.mem_cons.mpr (Or.inl (List.mem_singleton.mp h)))
        · exact Or.inr (List.mem_cons_of_mem _ h)
      · rintro (h | h)
        · exact Or.inl (List.mem_append.mpr (Or.inl h))
        · rcases List.mem_cons.mp h with rfl | h
          · exact Or.inl (List.mem_append.mpr (Or.inr (List.mem_singleton.mpr rfl)))
          · exact Or.inr h

theorem mem_first_seen (p : List Char) (x : Char) :
    x ∈ first_seen p ↔ x ∈ p := by
  unfold first_seen
  rw [mem_foldl_first_seen]
  simp

theorem first_seen_append_char (p : List Char) (c : Char) :
    first_seen (p ++ [c]) =
      if c ∈ p then first_seen p else first_seen p ++ [c] := by
  have h1 : first_seen (p ++ [c]) =
      if c ∈ first_seen p then first_seen p else first_seen p ++ [c] := by
    unfold first_seen
    rw [List.foldl_append]
    rfl
  rw [h1]
  by_cases hc : c ∈ p
  · rw [if_pos ((mem_first_seen p c).mpr hc), if_pos hc]
  · rw [if_neg (fun h => hc ((mem_first_seen p c).mp h)), if_neg hc]

theorem build_counts_rep :
    ∀ p : List Char,
      build_counts p = (first_seen p).map (fun c => (c, p.count c)) := by
  intro p
  induction p using List.reverseRecOn with
  | nil => rfl
  | append_singleton p c ih =>
    unfold build_counts at ih ⊢
    rw [List.foldl_append, List.foldl_cons, List.foldl_nil, ih,
      first_seen_append_char]
    by_cases hc : c ∈ p
    · rw [if_pos hc]
      unfold insert_count
      have hany : ((first_seen p).map (fun c => (c, p.count c))).any
          (fun q => q.1 = c) = true := by
        rw [List.any_eq_true]
        exact ⟨(c, p.count c),
          List.mem_map_of_mem _ ((mem_first_seen p c).mpr hc), by simp⟩
      rw [if_pos hany, List.map_map]
      refine List.map_congr_left ?_
      intro d hd
      by_cases hdc : d = c
      · subst hdc
        simp [List.count_append]
      · simp only [Function.comp_apply, if_neg hdc]
        have : (p ++ [c]).count d = p.count d := by
          rw [List.count_append]
          simp [List.count_cons, hdc]
        rw [this]
    · rw [if_neg hc]
      unfold insert_count
      have hany : ((first_seen p).map (fun c => (c, p.count c))).any
          (fun q => q.1 = c) = false := by
        rw [Bool.eq_false_iff]
        intro h
        obtain ⟨q, hq, hq1⟩ := List.any_eq_true.mp h
        obtain ⟨d, hd, rfl⟩ := List.mem_map.mp hq
        simp only [decide_eq_true_eq] at hq1
        subst hq1
        exact hc ((mem_first_seen p d).mp hd)
      rw [if_neg (by rw [hany]; exact Bool.false_ne_true)]
      rw [List.map_append]
      congr 1
      · refine List.map_congr_left ?_
        intro d hd
        have hdc : d ≠ c := fun h => hc (h ▸ (mem_first_seen p d).mp hd)
        have : (p ++ [c]).count d = p.count d := by
          rw [List.count_append]
          simp [List.count_cons, hdc]
        rw [this]
      · have h1 : (p ++ [c]).count c = 1 := by
          rw [List.count_append]
          simp [List.count_eq_zero_of_not_mem hc]
        simp [h1, List.count_eq_zero_of_not_mem hc]

theorem first_seen_pairwise_indexOf :
    ∀ p : List Char,
      List.Pairwise (fun c d => p.indexOf c < p.indexOf d) (first_seen p) := by
  intro p
  induction p using List.reverseRecOn with
  | nil => simp [first_seen]
  | append_singleton p c ih =>
    rw [first_seen_append_char]
    by_cases hc : c ∈ p
    · rw [if_pos hc]
      refine ih.imp_of_mem ?_
      intro a b ha hb hab
      have ha' := (mem_first_seen p a).mp ha
      have hb' := (mem_first_seen p b).mp hb
      rw [List.indexOf_append_of_mem ha', List.indexOf_append_of_mem hb']
      exact hab
    · rw [if_neg hc]
      rw [List.pairwise_append]
      refine ⟨ih.imp_of_mem ?_, by simp, ?_⟩
      · intro a b ha hb hab
        have ha' := (mem_first_seen p a).mp ha
        have hb' := (mem_first_seen p b).mp hb
        rw [List.indexOf_append_of_mem ha', List.indexOf_append_of_mem hb']
        exact hab
      · intro a ha b hb
        rw [List.mem_singleton] at hb
        subst hb
        have ha' := (mem_first_seen p a).mp ha
        rw [List.indexOf_append_of_mem ha', List.indexOf_append_of_not_mem hc]
        have hlt := List.indexOf_lt_length.mpr ha'
        simp only [List.indexOf_cons_self]
        omega

theorem foldl_pick_split :
    ∀ (ps : List (Char × Nat)) (p0 : Char × Nat),
      ∃ pre suf,
        p0 :: ps =
          pre ++ (ps.foldl (fun best q => if best.2 < q.2 then q else best) p0) :: suf ∧
        (∀ q ∈ pre,
          q.2 < (ps.foldl (fun best q => if best.2 < q.2 then q else best) p0).2) ∧
        (∀ q ∈ suf,
          q.2 ≤ (ps.foldl (fun best q => if best.2 < q.2 then q else best) p0).2) := by
  intro ps
  induction ps with
  | nil =>
    intro p0
    exact ⟨[], [], rfl, by simp, by simp⟩
  | cons y ys ih =>
    intro p0
    rw [List.foldl_cons]
    by_cases hy : p0.2 < y.2
    · rw [if_pos hy]
      obtain ⟨pre, suf, heq, hpre, hsuf⟩ := ih y
      refine ⟨p0 :: pre, suf, ?_, ?_, hsuf⟩
      · rw [List.cons_append, ← heq]
      · intro q hq
        rcases List.mem_cons.mp hq with rfl | hq
        · cases pre with
          | nil =>
            have hyB : y = ys.foldl (fun best q => if best.2 < q.2 then q else best) y := by
              have := heq
              rw [List.nil_append] at this
              exact (List.cons.injEq _ _ _ _).mp this |>.1
            rw [← hyB]
            exact hy
          | cons z pre' =>
            have hyz : y = z := by
              rw [List.cons_append] at heq
              exact (List.cons.injEq _ _ _ _).mp heq |>.1
            have : y ∈ z :: pre' := by rw [hyz]; exact List.mem_cons_self _ _
            exact lt_trans hy (hpre y this)
        · exact hpre q hq
    · rw [if_neg hy]
      obtain ⟨pre, suf, heq, hpre, hsuf⟩ := ih p0
      cases pre with
      | nil =>
        rw [List.nil_append] at heq
        obtain ⟨hB, hsufeq⟩ := (List.cons.injEq _ _ _ _).mp heq
        refine ⟨[], y :: suf, ?_, by simp, ?_⟩
        · rw [List.nil_append, ← hB, hsufeq]
        · intro q hq
          rcases List.mem_cons.mp hq with rfl | hq
          · rw [← hB]
            exact le_of_not_lt hy
          · exact hsuf q hq
      | cons z pre' =>
        rw [List.cons_append] at heq
        obtain ⟨hz, hys⟩ := (List.cons.injEq _ _ _ _).mp heq
        refine ⟨p0 :: y :: pre', suf, ?_, ?_, hsuf⟩
        · rw [List.cons_append, List.cons_append, ← hys]
        · intro q hq
          have hp0 : p0.2 <
              (ys.foldl (fun best q => if best.2 < q.2 then q else best) p0).2 := by
            apply hpre
            rw [← hz]
            exact List.mem_cons_self _ _
          rcases List.mem_cons.mp hq with rfl | hq
          · exact hp0
          · rcases List.mem_cons.mp hq with rfl | hq
            · exact lt_of_le_of_lt (le_of_not_lt hy) hp0
            · exact hpre q (List.mem_cons_of_mem _ hq)

theorem map_eq_append_cons {α β : Type} (f : α → β) :
    ∀ (pre : List β) (l : List α) (b : β) (suf : List β),
      l.map f = pre ++ b :: suf →
      ∃ l1 a l2, l = l1 ++ a :: l2 ∧ l1.map f = pre ∧ f a = b ∧ l2.map f = suf := by
  intro pre
  induction pre with
  | nil =>
    intro l b suf h
    rw [List.nil_append] at h
    cases l with
    | nil => exact absurd h (by simp)
    | cons a l2 =>
      rw [List.map_cons] at h
      obtain ⟨h1, h2⟩ := (List.cons.injEq _ _ _ _).mp h
      exact ⟨[], a, l2, rfl, rfl, h1, h2⟩
  | cons p pre' ih =>
    intro l b suf h
    cases l with
    | nil => exact absurd h (by simp)
    | cons a0 l' =>
      rw [List.map_cons, List.cons_append] at h
      obtain ⟨h1, h2⟩ := (List.cons.injEq _ _ _ _).mp h
      obtain ⟨l1, a, l2, hl, hm1, hfa, hm2⟩ := ih l' b suf h2
      exact ⟨a0 :: l1, a, l2, by rw [hl, List.cons_append],
        by rw [List.map_cons, h1, hm1], hfa, hm2⟩

theorem vote_first_max (col : List Char) (hne : col ≠ []) :
    max_by_count (build_counts col) ∈ col ∧
    ∀ d ∈ col,
      col.count d ≤ col.count (max_by_count (build_counts col)) ∧
      (col.count d = col.count (max_by_count (build_counts col)) →
        col.indexOf (max_by_count (build_counts col)) ≤ col.indexOf d) := by
  obtain ⟨k0, krest, hk⟩ : ∃ k0 krest, first_seen col = k0 :: krest := by
    rcases h0 : first_seen col with _ | ⟨k0, krest⟩
    · exfalso
      cases col with
      | nil => exact hne rfl
      | cons c0 rest =>
        have hc0 : c0 ∈ first_seen (c0 :: rest) :=
          (mem_first_seen _ _).mpr (List.mem_cons_self _ _)
        rw [h0] at hc0
        exact List.not_mem_nil _ hc0
    · exact ⟨k0, krest, rfl⟩
  have hcounts : build_counts col =
      (k0, col.count k0) :: krest.map (fun c => (c, col.count c)) := by
    rw [build_counts_rep, hk, List.map_cons]
  have hmax : max_by_count (build_counts col) =
      ((krest.map (fun c => (c, col.count c))).foldl
        (fun best q => if best.2 < q.2 then q else best) (k0, col.count k0)).1 := by
    rw [hcounts]
    rfl
  obtain ⟨pre, suf, hsplit, hpre, hsuf⟩ :=
    foldl_pick_split (krest.map (fun c => (c, col.count c))) (k0, col.count k0)
  have hkeysmap : (first_seen col).map (fun c => (c, col.count c)) =
      pre ++ ((krest.map (fun c => (c, col.count c))).foldl
        (fun best q => if best.2 < q.2 then q else best) (k0, col.count k0)) :: suf := by
    rw [hk, List.map_cons]
    exact hsplit
  obtain ⟨l1, a, l2, hkeq, hm1, hfa, hm2⟩ :=
    map_eq_append_cons (fun c => (c, col.count c)) pre (first_seen col) _ suf hkeysmap
  have hvoted : max_by_count (build_counts col) = a := by
    rw [hmax, ← hfa]
  have hB2 : ((krest.map (fun c => (c, col.count c))).foldl
      (fun best q => if best.2 < q.2 then q else best) (k0, col.count k0)).2 =
      col.count a := by
    rw [← hfa]
  have hamem : a ∈ col := by
    rw [← mem_first_seen, hkeq]
    exact List.mem_append.mpr (Or.inr (List.mem_cons_self _ _))
  refine ⟨hvoted ▸ hamem, ?_⟩
  intro d hd
  have hdmap : (d, col.count d) ∈ pre ++ ((krest.map (fun c => (c, col.count c))).foldl
      (fun best q => if best.2 < q.2 then q else best) (k0, col.count k0)) :: suf := by
    rw [← hkeysmap]
    exact List.mem_map_of_mem _ ((mem_first_seen col d).mpr hd)
  rw [hvoted]
  rcases List.mem_append.mp hdmap with hdpre | hdrest
  · have := hpre _ hdpre
    rw [hB2] at this
    constructor
    · exact le_of_lt this
    · intro heq
      rw [heq] at this
      exact absurd this (lt_irrefl _)
  · rcases List.mem_cons.mp hdrest with hdB | hdsuf
    · have hda : d = a := congrArg Prod.fst (hdB.trans hfa.symm)
      subst hda
      exact ⟨le_refl _, fun _ => le_refl _⟩
    · have := hsuf _ hdsuf
      rw [hB2] at this
      refine ⟨this, ?_⟩
      intro _
      have hdl2 : d ∈ l2 := by
        rw [← hm2] at hdsuf
        obtain ⟨e, he, hfe⟩ := List.mem_map.mp hdsuf
        have : e = d := congrArg Prod.fst hfe
        rw [← this]
        exact he
      have hpair := first_seen_pairwise_indexOf col
      rw [hkeq] at hpair
      have hpair2 := (List.pairwise_append.mp hpair).2.1
      have := (List.pairwise_cons.mp hpair2).1 d hdl2
      exact le_of_lt this

theorem getD_replicate_space (k : ℕ) :
    ∀ i : ℕ, (List.replicate k ' ').getD i ' ' = ' ' := by
  induction k with
  | zero => intro i; rfl
  | succ k ih =>
    intro i
    cases i with
    | zero => rfl
    | succ i =>
      rw [List.replicate_succ, List.getD_cons_succ]
      exact ih i

theorem getD_ljust (r : List Char) :
    ∀ (k i : ℕ), (r ++ List.replicate k ' ').getD i ' ' = r.getD i ' ' := by
  induction r with
  | nil =>
    intro k i
    rw [List.nil_append]
    exact getD_replicate_space k i
  | cons c cs ih =>
    intro k i
    cases i with
    | zero => rfl
    | succ i =>
      rw [List.cons_append, List.getD_cons_succ, List.getD_cons_succ]
      exact ih k i

theorem getD_zero_headD (r : List Char) : r.getD 0 ' ' = r.headD ' ' := by
  cases r <;> rfl

theorem tail_getD (r : List Char) (i : ℕ) :
    r.tail.getD i ' ' = r.getD (i + 1) ' ' := by
  cases r <;> rfl

theorem le_foldl_nat_max :
    ∀ (l : List ℕ) (a : ℕ), a ≤ l.foldl Nat.max a := by
  intro l
  induction l with
  | nil => intro a; exact le_refl a
  | cons x xs ih =>
    intro a
    exact le_trans (Nat.le_max_left a x) (ih (Nat.max a x))

theorem mem_le_foldl_nat_max :
    ∀ (l : List ℕ) (a x : ℕ), x ∈ l → x ≤ l.foldl Nat.max a := by
  intro l
  induction l with
  | nil => intro a x h; exact absurd h (List.not_mem_nil x)
  | cons y ys ih =>
    intro a x h
    rcases List.mem_cons.mp h with rfl | h
    · exact le_trans (Nat.le_max_right a x) (le_foldl_nat_max ys (Nat.max a x))
    · exact ih (Nat.max a y) x h

theorem length_le_max_row_length (rows : List (List Char)) (r : List Char)
    (hr : r ∈ rows) : r.length ≤ max_row_length rows := by
  unfold max_row_length
  exact mem_le_foldl_nat_max _ 0 r.length (List.mem_map_of_mem _ hr)

theorem ljust_length (r : List Char) (w : ℕ) (h : r.length ≤ w) :
    (ljust r w).length = w := by
  unfold ljust
  rw [List.length_append, List.length_replicate]
  omega

theorem columns_eq_len :
    ∀ (k : ℕ) (rows : List (List Char)), rows ≠ [] → (∀ r ∈ rows, r.length = k) →
      (columns rows).length = k ∧
      ∀ i, i < k →
        (columns rows).get? i = some (rows.map (fun r => r.getD i ' ')) := by
  intro k
  induction k with
  | zero =>
    intro rows hne h
    refine ⟨?_, fun i hi => absurd hi (by omega)⟩
    cases rows with
    | nil => exact absurd rfl hne
    | cons r0 rest =>
      have hr0 : r0 = [] :=
        List.length_eq_zero.mp (h r0 (List.mem_cons_self _ _))
      rw [show columns (r0 :: rest) = columns_aux r0 rest from rfl, hr0]
      rfl
  | succ k ih =>
    intro rows hne h
    cases rows with
    | nil => exact absurd rfl hne
    | cons r0 rest =>
      obtain ⟨c, cs, hr0⟩ : ∃ c cs, r0 = c :: cs := by
        cases r0 with
        | nil =>
          have := h [] (List.mem_cons_self _ _)
          simp at this
        | cons c cs => exact ⟨c, cs, rfl⟩
      subst hr0
      have hany : rest.any (fun r => r.isEmpty) = false := by
        rw [Bool.eq_false_iff]
        intro habs
        obtain ⟨r, hr, hremp⟩ := List.any_eq_true.mp habs
        have := h r (List.mem_cons_of_mem _ hr)
        rw [List.isEmpty_iff.mp hremp] at this
        simp at this
      have hcols : columns ((c :: cs) :: rest) =
          (c :: rest.map (fun r => r.headD ' ')) ::
            columns_aux cs (rest.map List.tail) := by
        show columns_aux (c :: cs) rest = _
        simp only [columns_aux, hany, Bool.false_eq_true, if_false]
      have htailrows : ∀ r ∈ cs :: rest.map List.tail, r.length = k := by
        intro r hr
        rcases List.mem_cons.mp hr with rfl | hr
        · have := h _ (List.mem_cons_self _ _)
          simpa using this
        · obtain ⟨r0, hr0, rfl⟩ := List.mem_map.mp hr
          have := h r0 (List.mem_cons_of_mem _ hr0)
          rw [List.length_tail, this]
          omega
      obtain ⟨ihlen, ihget⟩ :=
        ih (cs :: rest.map List.tail) (List.cons_ne_nil _ _) htailrows
      have hcols2 : columns (cs :: rest.map List.tail) =
          columns_aux cs (rest.map List.tail) := rfl
      constructor
      · rw [hcols, List.length_cons, ← hcols2, ihlen]
      · intro i hi
        cases i with
        | zero =>
          rw [hcols]
          show some (c :: rest.map (fun r => r.headD ' ')) =
            some (((c :: cs) :: rest).map (fun r => r.getD 0 ' '))
          rw [List.map_cons]
          congr 2
          · refine (List.map_congr_left ?_).symm
            intro r _
            exact getD_zero_headD r
        | succ i =>
          rw [hcols]
          show (columns_aux cs (rest.map List.tail)).get? i =
            some (((c :: cs) :: rest).map (fun r => r.getD (i + 1) ' '))
          rw [← hcols2, ihget i (by omega)]
          congr 1
          rw [List.map_cons, List.map_cons, List.map_map]
          congr 1
          refine List.map_congr_left ?_
          intro r _
          exact tail_getD r i

/-- C3: `majority_vote` right-pads its inputs with spaces to the longest
length and, position by position, outputs a character of maximal occurrence
count among the padded inputs' characters at that position, breaking ties in
favour of the character whose first occurrence at that position comes first
across the input strings (first-seen order); in particular
`majority_vote ["cat","cot","cat"] = "cat"`. -/
theorem majority_vote_spec (s0 : String) (rest : List String) :
    majority_vote (s0 :: rest) = some (vote_string (s0 :: rest)) ∧
    (vote_string (s0 :: rest)).toList.length =
      max_row_length ((s0 :: rest).map String.toList) ∧
    (∀ i c, (vote_string (s0 :: rest)).toList.get? i = some c →
      c ∈ col_at (s0 :: rest) i ∧
      ∀ d ∈ col_at (s0 :: rest) i,
        (col_at (s0 :: rest) i).count d ≤ (col_at (s0 :: rest) i).count c ∧
        ((col_at (s0 :: rest) i).count d = (col_at (s0 :: rest) i).count c →
          (col_at (s0 :: rest) i).indexOf c ≤ (col_at (s0 :: rest) i).indexOf d)) ∧
    majority_vote ["cat", "cot", "cat"] = some "cat" := by
  have hpadlen : ∀ r ∈ pad_rows ((s0 :: rest).map String.toList)
      (max_row_length ((s0 :: rest).map String.toList)),
      r.length = max_row_length ((s0 :: rest).map String.toList) := by
    intro r hr
    obtain ⟨r0, hr0, rfl⟩ := List.mem_map.mp hr
    exact ljust_length r0 _ (length_le_max_row_length _ r0 hr0)
  have hpadne : pad_rows ((s0 :: rest).map String.toList)
      (max_row_length ((s0 :: rest).map String.toList)) ≠ [] := by
    simp [pad_rows]
  obtain ⟨hclen, hcget⟩ :=
    columns_eq_len (max_row_length ((s0 :: rest).map String.toList))
      (pad_rows ((s0 :: rest).map String.toList)
        (max_row_length ((s0 :: rest).map String.toList))) hpadne hpadlen
  have htolist : (vote_string (s0 :: rest)).toList =
      (columns (pad_rows ((s0 :: rest).map String.toList)
        (max_row_length ((s0 :: rest).map String.toList)))).map
        (fun col => max_by_count (build_counts col)) := rfl
  refine ⟨rfl, ?_, ?_, by decide⟩
  · rw [htolist, List.length_map, hclen]
  · intro i c hc
    rw [htolist, List.get?_map] at hc
    obtain ⟨col, hcolget, hvote⟩ : ∃ col,
        (columns (pad_rows ((s0 :: rest).map String.toList)
          (max_row_length ((s0 :: rest).map String.toList)))).get? i = some col ∧
        max_by_count (build_counts col) = c := by
      cases hcase : (columns (pad_rows ((s0 :: rest).map String.toList)
          (max_row_length ((s0 :: rest).map String.toList)))).get? i with
      | none =>
        rw [hcase] at hc
        simp at hc
      | some col =>
        rw [hcase] at hc
        simp at hc
        exact ⟨col, rfl, hc⟩
    have hi : i < max_row_length ((s0 :: rest).map String.toList) := by
      by_contra hge
      push_neg at hge
      rw [List.get?_eq_none.mpr (by rw [hclen]; exact hge)] at hcolget
      exact Option.noConfusion hcolget
    have hcolval := hcget i hi
    rw [hcolget] at hcolval
    have hcoleq : col = col_at (s0 :: rest) i := by
      rw [Option.some_inj.mp hcolval]
      unfold pad_rows col_at
      rw [List.map_map]
      refine List.map_congr_left ?_
      intro r _
      show (ljust r (max_row_length ((s0 :: rest).map String.toList))).getD i ' ' =
        r.getD i ' '
      unfold ljust
      exact getD_ljust r _ i
    have hcolne : col ≠ [] := by
      rw [hcoleq]
      unfold col_at
      simp
    have hmain := vote_first_max col hcolne
    rw [hvote] at hmain
    rw [hcoleq] at hmain
    exact hmain

/-- Witness for C3 at the spec's example, position 1, voted character `a`. -/
theorem majority_vote_spec_witness :
    (vote_string ["cat", "cot", "cat"]).toList.get? 1 = some 'a' ∧
    ('a' ∈ col_at ["cat", "cot", "cat"] 1 ∧
      ∀ d ∈ col_at ["cat", "cot", "cat"] 1,
        (col_at ["cat", "cot", "cat"] 1).count d ≤
          (col_at ["cat", "cot", "cat"] 1).count 'a' ∧
        ((col_at ["cat", "cot", "cat"] 1).count d =
            (col_at ["cat", "cot", "cat"] 1).count 'a' →
          (col_at ["cat", "cot", "cat"] 1).indexOf 'a' ≤
            (col_at ["cat", "cot", "cat"] 1).indexOf d)) :=
  ⟨by decide,
    (majority_vote_spec "cat" ["cot", "cat"]).2.2.1 1 'a' (by decide)⟩

theorem collect_full_eq_mapM (roi : ROI) :
    ∀ groups : List (List (List Rectangle)),
      collect_full groups roi = groups.mapM (fun group => process_lines group roi) := by
  intro groups
  induction groups with
  | nil => rw [List.mapM_nil]; rfl
  | cons group rest ih =>
    rw [List.mapM_cons]
    unfold collect_full
    rw [ih]
    cases h1 : process_lines group roi <;>
      cases h2 : rest.mapM (fun group => process_lines group roi) <;>
        simp [Option.bind, h1, h2]

theorem collect_cheap_eq_mapM :
    ∀ groups : List (List (List Rectangle)),
      collect_cheap groups = groups.mapM (fun group =>
        (group[1]?).map
          (fun line => String.intercalate " " (line.map Rectangle.content))) := by
  intro groups
  induction groups with
  | nil => rw [List.mapM_nil]; rfl
  | cons group rest ih =>
    rw [List.mapM_cons]
    unfold collect_cheap
    rw [ih]
    cases h1 : group[1]? <;>
      cases h2 : rest.mapM (fun group =>
          (group[1]?).map
            (fun line => String.intercalate " " (line.map Rectangle.content))) <;>
        simp [Option.bind, h1, h2]

/-- C1: the strategy switch of `general_text_area` — when at most 3 line
groups were formed and no line holds more than 5 rectangles, every group goes
through the full pipeline (`process_lines`: boundary reconciliation, per-line
content join, empty-line filter, consensus identification); otherwise every
group's output is the space-joined contents of the group's line at index 1,
with no reconciliation or voting; in both regimes the per-group strings are
joined with newlines in group-list order. -/
theorem general_text_area_strategy (candidates : List (List Rectangle)) (roi : ROI) :
    (general_text_area candidates roi).1 =
      (if (align_lines (collect_candidate_lines candidates).1).length ≤ 3 ∧
          get_max_words (align_lines (collect_candidate_lines candidates).1) ≤ 5 then
        ((align_lines (collect_candidate_lines candidates).1).mapM
          (fun group => process_lines group roi)).map
          (fun words => String.intercalate "\n" words)
      else
        ((align_lines (collect_candidate_lines candidates).1).mapM
          (fun group => (group[1]?).map
            (fun line => String.intercalate " " (line.map Rectangle.content)))).map
          (fun words => String.intercalate "\n" words)) := by
  have hdef : (general_text_area candidates roi).1 =
      (if (align_lines (collect_candidate_lines candidates).1).length ≤ 3 ∧
          get_max_words (align_lines (collect_candidate_lines candidates).1) ≤ 5 then
        collect_full (align_lines (collect_candidate_lines candidates).1) roi
      else
        collect_cheap (align_lines (collect_candidate_lines candidates).1)).map
        (fun ws => String.intercalate "\n" ws) := rfl
  rw [hdef]
  by_cases hcond : (align_lines (collect_candidate_lines candidates).1).length ≤ 3 ∧
      get_max_words (align_lines (collect_candidate_lines candidates).1) ≤ 5
  · rw [if_pos hcond, if_pos hcond, collect_full_eq_mapM]
  · rw [if_neg hcond, if_neg hcond, collect_cheap_eq_mapM]

/-- C8 counterexample: `general_text_area` does not leave the caller-supplied
rectangle lists unchanged — `separate_to_lines` sorts each non-empty
candidate in place, so a candidate given in descending vertical order comes
back reordered. -/
theorem general_text_area_mutates :
    (general_text_area [[rect_b, rect_a]] roi_all_inside).2 ≠ [[rect_b, rect_a]] := by
  with_unfolding_all decide

/-- C8 as amended: the pipeline never loses, duplicates or replaces elements
of the caller-supplied lists — the post-state of each candidate list is a
permutation of its original contents (the in-place sort by vertical center is
the only caller-visible effect), and the result is a pure function of the
arguments by construction. -/
theorem general_text_area_post_perm (candidates : List (List Rectangle)) (roi : ROI) :
    List.Forall₂ (fun post orig => List.Perm post orig)
      (general_text_area candidates roi).2 candidates := by
  have hdef : (general_text_area candidates roi).2 =
      (collect_candidate_lines candidates).2 := rfl
  rw [hdef]
  clear hdef
  induction candidates with
  | nil => exact List.Forall₂.nil
  | cons cand rest ih =>
    cases cand with
    | nil =>
      have hstep : (collect_candidate_lines ([] :: rest)).2 =
          [] :: (collect_candidate_lines rest).2 := rfl
      rw [hstep]
      exact List.Forall₂.cons (List.Perm.refl _) ih
    | cons r rs =>
      have hstep : (collect_candidate_lines ((r :: rs) :: rest)).2 =
          sort_by_center (r :: rs) :: (collect_candidate_lines rest).2 := rfl
      rw [hstep]
      exact List.Forall₂.cons (sort_by_center_perm (r :: rs)) ih
